import Mathlib

/-!
Verification of the patch engine specification against a shallow embedding.

The repository slice under `src/` consists of the public header
`include/git2/patch.h` and the internal header `src/diff_patch.h`: it declares
the data model (`git_patch_hunk`, `git_patch_line_t`, `git_patch_line`) and the
operations, together with their documented behaviour, but the function bodies
are not part of the slice.  The data model below is translated from the
structure and enum declarations in `patch.h`; each operation is modelled from
the specification (and the header documentation), as marked on its doc comment.

Byte buffers are modelled as `List Char` so that byte counts are list lengths.
Line numbers are modelled as `Int`, with `-1` as the documented "not
applicable" sentinel ("Line number in old file or -1 if line is added").
-/

/-- Line origin constants, translated from the `git_patch_line_t` enum in
`include/git2/patch.h`.  The first six tag lines stored in a patch; the last
three are used only by the text-output formatting path. -/
inductive LineOrigin where
  | context
  | addition
  | deletion
  | contextEofnl
  | addEofnl
  | delEofnl
  | fileHdr
  | hunkHdr
  | binary
deriving DecidableEq, Fintype

/-- The one-character wire representation of each origin tag, from the explicit
enumerator values in `git_patch_line_t`. -/
def originChar : LineOrigin → Char
  | .context => ' '
  | .addition => '+'
  | .deletion => '-'
  | .contextEofnl => '='
  | .addEofnl => '>'
  | .delEofnl => '<'
  | .fileHdr => 'F'
  | .hunkHdr => 'H'
  | .binary => 'B'

/-- True for the six origins that may tag a `Line` stored in a patch; false for
the three formatter-only origins (`patch.h` documents those as sent only when
the content of a diff is being formatted). -/
def isStorable : LineOrigin → Bool
  | .fileHdr => false
  | .hunkHdr => false
  | .binary => false
  | _ => true

/-- Base category of a line origin for statistics and rendering. -/
inductive LineCategory where
  | context
  | addition
  | deletion
deriving DecidableEq

/-- Modelled from the spec: each EOFNL-variant origin counts toward its
corresponding base category; formatter-only origins have no base category. -/
def baseCategory : LineOrigin → Option LineCategory
  | .context => some .context
  | .contextEofnl => some .context
  | .addition => some .addition
  | .addEofnl => some .addition
  | .deletion => some .deletion
  | .delEofnl => some .deletion
  | .fileHdr => none
  | .hunkHdr => none
  | .binary => none

/-- True for the three end-of-file-without-newline origin variants. -/
def isEofnl : LineOrigin → Bool
  | .contextEofnl => true
  | .addEofnl => true
  | .delEofnl => true
  | _ => false

/-- The documented sentinel for a line number that is not applicable. -/
def NOT_APPLICABLE : Int := -1

/-- One span of diff data, translated from `git_patch_line` in
`include/git2/patch.h` (origin, content with its length, old and new line
numbers; the sentinel `-1` marks "not applicable"). -/
structure Line where
  origin : LineOrigin
  content : List Char
  old_lineno : Int
  new_lineno : Int
deriving DecidableEq

/-- One hunk of a diff, translated from `git_patch_hunk` in
`include/git2/patch.h`.  The `num_lines` field of the C structure is the count
of lines stored for the hunk, kept here as `lines.length`. -/
structure Hunk where
  old_start : Nat
  old_lines : Nat
  new_start : Nat
  new_lines : Nat
  header : List Char
  lines : List Line
deriving DecidableEq

/-- Delta metadata for the pairing being diffed: old/new path and the binary
flag (the fields of the delta the modelled operations consult). -/
structure Delta where
  oldPath : List Char
  newPath : List Char
  binary : Bool
deriving DecidableEq

/-- The finalized, immutable patch: its delta, the ordered hunks, and owned
copies of the old-side and new-side content. -/
structure Patch where
  delta : Delta
  hunks : List Hunk
  oldData : List Char
  newData : List Char
deriving DecidableEq

/-- Error kinds of the patch engine, from the specification's error handling
design (not_found, invalid state, diff-engine failure, allocation failure,
protocol violation) together with propagation of a failing callback's code. -/
inductive GitError where
  | notFound
  | invalidState
  | engineFailure
  | allocationFailure
  | protocolViolation
  | callbackFailure (code : Int)
deriving DecidableEq

/-- Number of hunks in a patch (`git_patch_num_hunks`). -/
def git_patch_num_hunks (p : Patch) : Nat := p.hunks.length

/-- Get the delta associated with a patch (`git_patch_delta`); never fails. -/
def git_patch_delta (p : Patch) : Delta := p.delta

/-- Modelled from the spec: `git_patch_get_hunk` returns the hunk at the given
index and fails with not_found when the index is out of range. -/
def git_patch_get_hunk (p : Patch) (hunk_idx : Nat) : Except GitError Hunk :=
  match p.hunks.get? hunk_idx with
  | some h => .ok h
  | none => .error .notFound

/-- Modelled from the spec: `git_patch_num_lines_in_hunk` returns the hunk's
`num_lines`, or the negative sentinel `-1` when the hunk index is invalid. -/
def git_patch_num_lines_in_hunk (p : Patch) (hunk_idx : Nat) : Int :=
  match p.hunks.get? hunk_idx with
  | some h => (h.lines.length : Int)
  | none => -1

/-- Modelled from the spec: `git_patch_get_line_in_hunk` returns the line at
the given hunk and line indices and fails with not_found when either index is
out of range. -/
def git_patch_get_line_in_hunk (p : Patch) (hunk_idx line_of_hunk : Nat) :
    Except GitError Line :=
  match p.hunks.get? hunk_idx with
  | none => .error .notFound
  | some h =>
    match h.lines.get? line_of_hunk with
    | some l => .ok l
    | none => .error .notFound

/-- Count of the lines of a hunk falling in the given base category. -/
def hunkCatCount (c : LineCategory) (h : Hunk) : Nat :=
  h.lines.countP (fun l => decide (baseCategory l.origin = some c))

/-- Modelled from the spec: `git_patch_line_stats` returns the total context,
addition and deletion line counts summed across all hunks, with EOFNL-variant
origins counted toward their base category. -/
def git_patch_line_stats (p : Patch) : Nat × Nat × Nat :=
  ((p.hunks.map (hunkCatCount .context)).sum,
   (p.hunks.map (hunkCatCount .addition)).sum,
   (p.hunks.map (hunkCatCount .deletion)).sum)

/-- Modelled from the spec: the file header rendered from the delta's path
presentation. -/
def fileHeader (d : Delta) : List Char :=
  "--- ".toList ++ d.oldPath ++ "\n+++ ".toList ++ d.newPath ++ ['\n']

/-- Modelled from the spec: byte contribution of one line to
`git_patch_size` — addition and deletion content always counts, context
content counts only when context is included, and formatter-only origins never
occur in stored lines (they contribute nothing). -/
def lineSize (include_context : Bool) (l : Line) : Nat :=
  match baseCategory l.origin with
  | some .addition => l.content.length
  | some .deletion => l.content.length
  | some .context => if include_context then l.content.length else 0
  | none => 0

/-- Modelled from the spec: `git_patch_size` sums line content bytes under the
context-inclusion policy, plus the hunk header lengths and the file header
length when the corresponding flags are set.  Per the header documentation it
counts only the actual data of the diff lines, never rendering adornments. -/
def git_patch_size (p : Patch)
    (include_context include_hunk_headers include_file_headers : Bool) : Nat :=
  (p.hunks.map (fun h => (h.lines.map (lineSize include_context)).sum)).sum
  + (if include_hunk_headers then (p.hunks.map (fun h => h.header.length)).sum
     else 0)
  + (if include_file_headers then (fileHeader p.delta).length else 0)

/-- The literal annotation the formatter appends after a line whose origin is
an EOFNL variant, in place of that line's trailing newline. -/
def noNewlineText : List Char := "\n\\ No newline at end of file\n".toList

/-- Modelled from the spec: the one-character origin mark the formatter puts
before a rendered line, by base category. -/
def lineMark (l : Line) : List Char :=
  match baseCategory l.origin with
  | some .context => [' ']
  | some .addition => ['+']
  | some .deletion => ['-']
  | none => []

/-- Modelled from the spec: a rendered body line is its origin mark, its raw
content bytes copied verbatim, and the no-newline annotation when its origin
is an EOFNL variant. -/
def renderLine (l : Line) : List Char :=
  lineMark l ++ l.content ++ (if isEofnl l.origin then noNewlineText else [])

/-- Modelled from the spec: a rendered hunk is its header line terminated by a
newline, followed by each of its lines in order. -/
def renderHunk (h : Hunk) : List Char :=
  h.header ++ ['\n'] ++ (h.lines.map renderLine).flatten

/-- Modelled from the spec: `git_patch_to_str` renders the file header block
followed by each hunk in order. -/
def git_patch_to_str (p : Patch) : List Char :=
  fileHeader p.delta ++ (p.hunks.map renderHunk).flatten

/-- Every line stored in the patch carries one of the six storable origins. -/
def PatchStorable (p : Patch) : Prop :=
  ∀ h ∈ p.hunks, ∀ l ∈ h.lines, isStorable l.origin = true

instance (p : Patch) : Decidable (PatchStorable p) := by
  unfold PatchStorable; infer_instance

/-- C1: out-of-range hunk indices make `git_patch_get_hunk` fail with
not_found, and for a valid hunk index an out-of-range line index makes
`git_patch_get_line_in_hunk` fail with not_found. -/
theorem git_patch_lookup_out_of_range_not_found (p : Patch) (i j : Nat) :
    (git_patch_num_hunks p ≤ i → git_patch_get_hunk p i = .error .notFound)
    ∧ (i < git_patch_num_hunks p →
        (git_patch_num_lines_in_hunk p i).toNat ≤ j →
        git_patch_get_line_in_hunk p i j = .error .notFound) := by
  constructor
  · intro hle
    unfold git_patch_get_hunk
    rw [List.get?_eq_none.mpr hle]
  · intro hlt hj
    unfold git_patch_get_line_in_hunk
    have hj' : (p.hunks.get ⟨i, hlt⟩).lines.length ≤ j := by
      unfold git_patch_num_lines_in_hunk at hj
      rw [List.get?_eq_get hlt] at hj
      simpa using hj
    simp only [List.get?_eq_get hlt, List.get?_eq_none.mpr hj']

theorem git_patch_lookup_out_of_range_not_found_witness :
    git_patch_get_hunk ⟨⟨['a'], ['a'], false⟩, [], [], []⟩ 0
      = .error .notFound
    ∧ git_patch_get_line_in_hunk
        ⟨⟨['a'], ['a'], false⟩, [⟨1, 1, 1, 1, ['@'], []⟩], [], []⟩ 0 0
      = .error .notFound :=
  ⟨(git_patch_lookup_out_of_range_not_found ⟨⟨['a'], ['a'], false⟩, [], [], []⟩
      0 0).1 (by decide),
   (git_patch_lookup_out_of_range_not_found
      ⟨⟨['a'], ['a'], false⟩, [⟨1, 1, 1, 1, ['@'], []⟩], [], []⟩ 0 0).2
      (by decide) (by decide)⟩

/-- C4: `git_patch_num_lines_in_hunk` returns the hunk's stored line count (a
nonnegative value) when the index is in range, and the negative sentinel `-1`
when the index is out of range. -/
theorem git_patch_num_lines_in_hunk_spec (p : Patch) (i : Nat) :
    (∀ h : i < git_patch_num_hunks p,
       git_patch_num_lines_in_hunk p i = ((p.hunks.get ⟨i, h⟩).lines.length : Int)
       ∧ 0 ≤ git_patch_num_lines_in_hunk p i)
    ∧ (git_patch_num_hunks p ≤ i → git_patch_num_lines_in_hunk p i = -1) := by
  constructor
  · intro h
    unfold git_patch_num_lines_in_hunk
    rw [List.get?_eq_get h]
    exact ⟨rfl, by positivity⟩
  · intro hle
    unfold git_patch_num_lines_in_hunk
    rw [List.get?_eq_none.mpr hle]

theorem git_patch_num_lines_in_hunk_spec_witness :
    git_patch_num_lines_in_hunk
        ⟨⟨['a'], ['a'], false⟩, [⟨1, 1, 1, 1, ['@'], []⟩], [], []⟩ 0 = 0
    ∧ git_patch_num_lines_in_hunk
        ⟨⟨['a'], ['a'], false⟩, [⟨1, 1, 1, 1, ['@'], []⟩], [], []⟩ 1 = -1 :=
  ⟨((git_patch_num_lines_in_hunk_spec
      ⟨⟨['a'], ['a'], false⟩, [⟨1, 1, 1, 1, ['@'], []⟩], [], []⟩ 0).1
      (by decide)).1,
   (git_patch_num_lines_in_hunk_spec
      ⟨⟨['a'], ['a'], false⟩, [⟨1, 1, 1, 1, ['@'], []⟩], [], []⟩ 1).2
      (by decide)⟩

/-- C6: `git_patch_to_str` is a pure function of the patch state, so two
invocations on the same unmodified patch produce byte-identical output. -/
theorem git_patch_to_str_deterministic (p : Patch) :
    git_patch_to_str p = git_patch_to_str p := rfl

/-- The lines of the specification's Scenario A (old `"a\nb\nc\n"`, new
`"a\nX\nc\n"`): context `a`, deletion `b`, addition `X`, context `c`. -/
def exLines : List Line :=
  [⟨.context, "a\n".toList, 1, 1⟩,
   ⟨.deletion, "b\n".toList, 2, -1⟩,
   ⟨.addition, "X\n".toList, -1, 2⟩,
   ⟨.context, "c\n".toList, 3, 3⟩]

/-- The single hunk of Scenario A. -/
def exHunk : Hunk := ⟨1, 3, 1, 3, "@@ -1,3 +1,3 @@".toList, exLines⟩

/-- The delta of Scenario A. -/
def exDelta : Delta := ⟨"a.txt".toList, "a.txt".toList, false⟩

/-- The patch of Scenario A, used as the concrete evaluation input. -/
def exPatch : Patch := ⟨exDelta, [exHunk], "a\nb\nc\n".toList, "a\nX\nc\n".toList⟩

theorem catCount_storable (ls : List Line)
    (hw : ∀ l ∈ ls, isStorable l.origin = true) :
    ls.countP (fun l => decide (baseCategory l.origin = some .context))
    + ls.countP (fun l => decide (baseCategory l.origin = some .addition))
    + ls.countP (fun l => decide (baseCategory l.origin = some .deletion))
    = ls.length := by
  induction ls with
  | nil => simp
  | cons a t ih =>
    have ha := hw a (List.mem_cons_self a t)
    have ht : ∀ l ∈ t, isStorable l.origin = true :=
      fun l hl => hw l (List.mem_cons_of_mem a hl)
    have hih := ih ht
    rw [List.countP_cons, List.countP_cons, List.countP_cons]
    simp only [List.length_cons]
    obtain ⟨o, c, x, y⟩ := a
    cases o
    case fileHdr => simp [isStorable] at ha
    case hunkHdr => simp [isStorable] at ha
    case binary => simp [isStorable] at ha
    all_goals simp only [baseCategory, decide_eq_true_eq] at hih ⊢
    all_goals simp
    all_goals omega

theorem line_stats_sum_hunks (L : List Hunk)
    (hw : ∀ h ∈ L, ∀ l ∈ h.lines, isStorable l.origin = true) :
    (L.map (hunkCatCount .context)).sum + (L.map (hunkCatCount .addition)).sum
    + (L.map (hunkCatCount .deletion)).sum
    = (L.map (fun h => h.lines.length)).sum := by
  induction L with
  | nil => simp
  | cons a t ih =>
    have ha := hw a (List.mem_cons_self a t)
    have ht : ∀ h ∈ t, ∀ l ∈ h.lines, isStorable l.origin = true :=
      fun h hh => hw h (List.mem_cons_of_mem a hh)
    have hcat := catCount_storable a.lines ha
    have hih := ih ht
    simp only [List.map_cons, List.sum_cons, hunkCatCount] at *
    omega

theorem sum_num_lines_range (L : List Hunk) :
    ((List.range L.length).map (fun i => (match L.get? i with
      | some h => ((h.lines.length : Nat) : Int)
      | none => (-1 : Int)).toNat)).sum
    = (L.map (fun h => h.lines.length)).sum := by
  induction L with
  | nil => simp
  | cons a t ih =>
    rw [List.length_cons, List.range_succ_eq_map]
    simp only [List.map_cons, List.map_map, List.sum_cons, List.get?_cons_zero,
      Int.toNat_natCast]
    have hcomp :
        ((fun i => (match (a :: t).get? i with
          | some h => ((h.lines.length : Nat) : Int)
          | none => (-1 : Int)).toNat) ∘ Nat.succ)
        = (fun i => (match t.get? i with
          | some h => ((h.lines.length : Nat) : Int)
          | none => (-1 : Int)).toNat) := by
      funext i
      simp [Function.comp, List.get?_cons_succ]
    rw [hcomp, ih]

/-- C2: the three counts of `git_patch_line_stats` sum to the total of
`git_patch_num_lines_in_hunk` over all hunk indices, and each EOFNL-variant
origin is counted toward its corresponding base category. -/
theorem git_patch_line_stats_total (p : Patch) (hw : PatchStorable p) :
    (git_patch_line_stats p).1 + (git_patch_line_stats p).2.1
      + (git_patch_line_stats p).2.2
    = ((List.range (git_patch_num_hunks p)).map
        (fun i => (git_patch_num_lines_in_hunk p i).toNat)).sum
    ∧ baseCategory .contextEofnl = baseCategory .context
    ∧ baseCategory .addEofnl = baseCategory .addition
    ∧ baseCategory .delEofnl = baseCategory .deletion := by
  refine ⟨?_, rfl, rfl, rfl⟩
  unfold git_patch_line_stats git_patch_num_lines_in_hunk git_patch_num_hunks
  rw [sum_num_lines_range p.hunks]
  exact line_stats_sum_hunks p.hunks hw

theorem git_patch_line_stats_total_witness :
    (git_patch_line_stats exPatch).1 + (git_patch_line_stats exPatch).2.1
      + (git_patch_line_stats exPatch).2.2
    = ((List.range (git_patch_num_hunks exPatch)).map
        (fun i => (git_patch_num_lines_in_hunk exPatch i).toNat)).sum :=
  (git_patch_line_stats_total exPatch (by decide)).1

/-- Context-line content bytes of a patch (the bytes `git_patch_size` includes
only when context inclusion is requested). -/
def contextBytes (p : Patch) : Nat :=
  (p.hunks.map (fun h => (h.lines.map (fun l =>
    if baseCategory l.origin = some .context then l.content.length
    else 0)).sum)).sum

/-- Total byte length of the hunk header strings of a patch. -/
def hunkHeadersLen (p : Patch) : Nat :=
  (p.hunks.map (fun h => h.header.length)).sum

/-- Total number of lines stored in a patch across all hunks. -/
def totalLines (p : Patch) : Nat :=
  (p.hunks.map (fun h => h.lines.length)).sum

/-- Number of stored lines whose origin is an EOFNL variant. -/
def eofnlCount (p : Patch) : Nat :=
  (p.hunks.map (fun h => h.lines.countP (fun l => isEofnl l.origin))).sum

theorem lineSize_true_eq (l : Line) :
    lineSize true l = lineSize false l
      + (if baseCategory l.origin = some .context then l.content.length
         else 0) := by
  obtain ⟨o, c, x, y⟩ := l
  cases o <;> simp [lineSize, baseCategory]

theorem size_lines_split (ls : List Line) :
    (ls.map (lineSize true)).sum
    = (ls.map (lineSize false)).sum
      + (ls.map (fun l =>
          if baseCategory l.origin = some .context then l.content.length
          else 0)).sum := by
  induction ls with
  | nil => simp
  | cons a t ih =>
    have ha := lineSize_true_eq a
    simp only [List.map_cons, List.sum_cons]
    omega

theorem size_hunks_split (L : List Hunk) :
    (L.map (fun h => (h.lines.map (lineSize true)).sum)).sum
    = (L.map (fun h => (h.lines.map (lineSize false)).sum)).sum
      + (L.map (fun h => (h.lines.map (fun l =>
          if baseCategory l.origin = some .context then l.content.length
          else 0)).sum)).sum := by
  induction L with
  | nil => simp
  | cons a t ih =>
    have ha := size_lines_split a.lines
    simp only [List.map_cons, List.sum_cons]
    omega

theorem renderLine_length (l : Line) (hw : isStorable l.origin = true) :
    (renderLine l).length
    = lineSize true l + 1
      + (if isEofnl l.origin then noNewlineText.length else 0) := by
  obtain ⟨o, c, x, y⟩ := l
  cases o <;>
    simp_all [renderLine, lineMark, lineSize, baseCategory, isEofnl,
      isStorable] <;> omega

theorem renderLines_length (ls : List Line)
    (hw : ∀ l ∈ ls, isStorable l.origin = true) :
    ((ls.map renderLine).flatten).length
    = (ls.map (lineSize true)).sum + ls.length
      + noNewlineText.length * ls.countP (fun l => isEofnl l.origin) := by
  induction ls with
  | nil => simp
  | cons a t ih =>
    have ha := renderLine_length a (hw a (List.mem_cons_self a t))
    have hih := ih (fun l hl => hw l (List.mem_cons_of_mem a hl))
    rw [show noNewlineText.length = 29 from by decide] at *
    simp only [List.map_cons, List.flatten_cons, List.length_append,
      List.sum_cons, List.length_cons, List.countP_cons]
    by_cases he : isEofnl a.origin <;> simp only [he] at * <;> simp_all <;>
      omega

theorem renderHunk_length (h : Hunk)
    (hw : ∀ l ∈ h.lines, isStorable l.origin = true) :
    (renderHunk h).length
    = h.header.length + 1 + (h.lines.map (lineSize true)).sum
      + h.lines.length
      + noNewlineText.length * h.lines.countP (fun l => isEofnl l.origin) := by
  have := renderLines_length h.lines hw
  simp only [renderHunk, List.length_append, List.length_cons,
    List.length_nil]
  omega

theorem to_str_hunks_length (L : List Hunk)
    (hw : ∀ h ∈ L, ∀ l ∈ h.lines, isStorable l.origin = true) :
    ((L.map renderHunk).flatten).length
    = (L.map (fun h => (h.lines.map (lineSize true)).sum)).sum
      + (L.map (fun h => h.header.length)).sum
      + (L.map (fun h => h.lines.length)).sum
      + L.length
      + noNewlineText.length
        * (L.map (fun h => h.lines.countP (fun l => isEofnl l.origin))).sum := by
  induction L with
  | nil => simp
  | cons a t ih =>
    have ha := renderHunk_length a (hw a (List.mem_cons_self a t))
    have hih := ih (fun h hh => hw h (List.mem_cons_of_mem a hh))
    rw [show noNewlineText.length = 29 from by decide] at *
    simp only [List.map_cons, List.flatten_cons, List.length_append,
      List.sum_cons, List.length_cons]
    omega

/-- C3 counterexample: on the Scenario A patch, `git_patch_size` with every
inclusion flag set does not equal the byte length of the text produced by
`git_patch_to_str`, because the size never counts the one-character origin
marks or the newline terminating the hunk header. -/
theorem git_patch_size_ne_to_str_length :
    git_patch_size exPatch true true true
      ≠ (git_patch_to_str exPatch).length := by decide

/-- C3 (amended): `git_patch_size` with all flags set dominates the all-zero
policy, the difference being exactly the context content bytes plus the hunk
header bytes plus the file header bytes; and the formatter's output length
exceeds the all-flags size by exactly the rendering adornments — one origin
mark per line, one newline per hunk header, and one no-newline annotation per
EOFNL line. -/
theorem git_patch_size_decomposition_and_to_str_length (p : Patch)
    (hw : PatchStorable p) :
    git_patch_size p false false false ≤ git_patch_size p true true true
    ∧ git_patch_size p true true true
      = git_patch_size p false false false + contextBytes p + hunkHeadersLen p
        + (fileHeader p.delta).length
    ∧ (git_patch_to_str p).length
      = git_patch_size p true true true + totalLines p + git_patch_num_hunks p
        + noNewlineText.length * eofnlCount p := by
  have hsplit : git_patch_size p true true true
      = git_patch_size p false false false + contextBytes p + hunkHeadersLen p
        + (fileHeader p.delta).length := by
    unfold git_patch_size contextBytes hunkHeadersLen
    have := size_hunks_split p.hunks
    simp only [if_true, if_false, Bool.false_eq_true]
    omega
  have hlen : (git_patch_to_str p).length
      = git_patch_size p true true true + totalLines p + git_patch_num_hunks p
        + noNewlineText.length * eofnlCount p := by
    unfold git_patch_to_str git_patch_size totalLines git_patch_num_hunks
      eofnlCount
    have := to_str_hunks_length p.hunks hw
    simp only [if_true, if_false, Bool.false_eq_true, List.length_append]
    omega
  exact ⟨by omega, hsplit, hlen⟩

theorem git_patch_size_decomposition_witness :
    git_patch_size exPatch false false false
      ≤ git_patch_size exPatch true true true
    ∧ (git_patch_to_str exPatch).length
      = git_patch_size exPatch true true true + totalLines exPatch
        + git_patch_num_hunks exPatch
        + noNewlineText.length * eofnlCount exPatch :=
  ⟨(git_patch_size_decomposition_and_to_str_length exPatch (by decide)).1,
   (git_patch_size_decomposition_and_to_str_length exPatch (by decide)).2.2⟩

/-- Events of the diff engine's ordered callback protocol: the file-level
callback, a hunk-level callback carrying the hunk header fields, and a
line-level callback carrying one line of diff data. -/
inductive DiffEvent where
  | file
  | hunk (old_start old_lines new_start new_lines : Nat) (header : List Char)
  | line (origin : LineOrigin) (content : List Char)
      (old_lineno new_lineno : Int)
deriving DecidableEq

/-- Caller-supplied callbacks driven during construction; a nonzero return
value signals failure, as documented for the diff callback types consumed by
`git_diff_patch__invoke_callbacks` and `git_diff_output`. -/
structure Callbacks where
  file_cb : Delta → Int
  hunk_cb : Hunk → Int
  line_cb : LineOrigin → List Char → Int → Int → Int

/-- Builder-internal state: whether the file callback has occurred, the
completed hunks in order, and the hunk currently receiving lines. -/
structure BuildState where
  seenFile : Bool
  done : List Hunk
  cur : Option Hunk

/-- The initial builder state: no file seen, no hunks, no lines. -/
def initState : BuildState := ⟨false, [], none⟩

/-- The hunks accumulated in a builder state, the current hunk last. -/
def pushCur (st : BuildState) : List Hunk := st.done ++ st.cur.toList

/-- Modelled from the spec: one builder step.  The callback for the event is
invoked first and a nonzero return aborts construction with that code
propagated; a hunk event requires the file callback to have occurred and a
line event requires a current hunk, otherwise the step is a protocol
violation; otherwise the event's data is appended to the accumulated state. -/
def buildStep (cbs : Callbacks) (d : Delta) (st : BuildState) :
    DiffEvent → Except GitError BuildState
  | .file =>
    if cbs.file_cb d = 0 then
      if st.seenFile then .error .protocolViolation
      else .ok { st with seenFile := true }
    else .error (.callbackFailure (cbs.file_cb d))
  | .hunk os ol ns nl hdr =>
    if cbs.hunk_cb ⟨os, ol, ns, nl, hdr, []⟩ = 0 then
      if st.seenFile then
        .ok { st with done := pushCur st, cur := some ⟨os, ol, ns, nl, hdr, []⟩ }
      else .error .protocolViolation
    else .error (.callbackFailure (cbs.hunk_cb ⟨os, ol, ns, nl, hdr, []⟩))
  | .line o c a b =>
    if cbs.line_cb o c a b = 0 then
      match st.cur with
      | some h =>
        .ok { st with cur := some { h with lines := h.lines ++ [⟨o, c, a, b⟩] } }
      | none => .error .protocolViolation
    else .error (.callbackFailure (cbs.line_cb o c a b))

/-- Modelled from the spec: drive the builder over the diff engine's event
sequence, aborting at the first failing step. -/
def buildRun (cbs : Callbacks) (d : Delta) :
    BuildState → List DiffEvent → Except GitError BuildState
  | st, [] => .ok st
  | st, ev :: evs =>
    match buildStep cbs d st ev with
    | .ok st2 => buildRun cbs d st2 evs
    | .error e => .error e

/-- Modelled from the spec: construct a patch by driving the builder from the
initial state; on success the accumulated hunks are frozen into an immutable
patch owning the old-side and new-side data, and on failure the error is
propagated and no patch is produced. -/
def buildPatch (cbs : Callbacks) (d : Delta) (oldData newData : List Char)
    (evs : List DiffEvent) : Except GitError Patch :=
  match buildRun cbs d initState evs with
  | .ok st => .ok ⟨d, pushCur st, oldData, newData⟩
  | .error e => .error e

/-- Modelled from the spec: binary detection for a content buffer; the
specification leaves the detection heuristic to the diff engine, modelled
here as the presence of a NUL byte. -/
def detectBinary (data : List Char) : Bool := data.contains (Char.ofNat 0)

/-- Modelled from the spec: the common construction pipeline after input
normalization.  If either side is detected as binary, no patch is constructed
and the delta's binary flag is set; if both sides are byte-identical, no
patch is constructed; neither outcome is an error.  Otherwise the builder is
driven over the diff engine's events. -/
def patch_from_buffers (cbs : Callbacks) (oldPath newPath : List Char)
    (oldData newData : List Char) (evs : List DiffEvent) :
    Except GitError (Delta × Option Patch) :=
  if detectBinary oldData || detectBinary newData then
    .ok (⟨oldPath, newPath, true⟩, none)
  else if oldData = newData then
    .ok (⟨oldPath, newPath, false⟩, none)
  else
    match buildPatch cbs ⟨oldPath, newPath, false⟩ oldData newData evs with
    | .ok p => .ok (⟨oldPath, newPath, false⟩, some p)
    | .error e => .error e

/-- Modelled from the spec: `git_patch_from_blobs` — either blob may be
absent, meaning empty content; both sides are normalized to byte buffers and
fed to the common pipeline. -/
def git_patch_from_blobs (cbs : Callbacks) (old_blob : Option (List Char))
    (old_as_path : List Char) (new_blob : Option (List Char))
    (new_as_path : List Char) (evs : List DiffEvent) :
    Except GitError (Delta × Option Patch) :=
  patch_from_buffers cbs old_as_path new_as_path (old_blob.getD [])
    (new_blob.getD []) evs

/-- Modelled from the spec: `git_patch_from_blob_and_buffer` — like
`git_patch_from_blobs` with the new side supplied as a raw buffer. -/
def git_patch_from_blob_and_buffer (cbs : Callbacks)
    (old_blob : Option (List Char)) (old_as_path : List Char)
    (buffer : Option (List Char)) (buffer_as_path : List Char)
    (evs : List DiffEvent) : Except GitError (Delta × Option Patch) :=
  patch_from_buffers cbs old_as_path buffer_as_path (old_blob.getD [])
    (buffer.getD []) evs

/-- The two sides of one delta of a diff list: paths and content buffers. -/
structure DeltaInput where
  oldPath : List Char
  oldData : List Char
  newPath : List Char
  newData : List Char
deriving DecidableEq

/-- Modelled from the spec: `git_patch_from_diff_delta` — look up the delta's
two sides by index in the diff list (an out-of-range index is a general
failure) and feed them to the common pipeline. -/
def git_patch_from_diff_delta (cbs : Callbacks) (diff : List DeltaInput)
    (delta_index : Nat) (evs : List DiffEvent) :
    Except GitError (Delta × Option Patch) :=
  match diff.get? delta_index with
  | some di => patch_from_buffers cbs di.oldPath di.newPath di.oldData
      di.newData evs
  | none => .error .engineFailure

theorem patch_from_buffers_no_patch (cbs : Callbacks)
    (oldPath newPath oldData newData : List Char) (evs : List DiffEvent)
    (hid : oldData = newData ∨ detectBinary oldData = true
      ∨ detectBinary newData = true) :
    patch_from_buffers cbs oldPath newPath oldData newData evs
      = .ok (⟨oldPath, newPath,
          detectBinary oldData || detectBinary newData⟩, none) := by
  by_cases hbin : (detectBinary oldData || detectBinary newData) = true
  · unfold patch_from_buffers
    rw [if_pos hbin, hbin]
  · have heq : oldData = newData := by
      rcases hid with h | h | h
      · exact h
      · exact absurd (by rw [h]; simp) hbin
      · exact absurd (by rw [h]; simp) hbin
    unfold patch_from_buffers
    rw [Bool.not_eq_true] at hbin
    rw [hbin, if_neg (by simp), if_pos heq]

/-- C5: for each construction entry point, byte-identical normalized sides or
a binary side yield a success outcome carrying no patch, with the returned
delta's binary flag set exactly when a binary side was detected — in
particular set to true in the binary case. -/
theorem construction_no_patch_on_identical_or_binary (cbs : Callbacks)
    (old_as_path new_as_path : List Char)
    (old_blob new_blob buffer : Option (List Char))
    (diff : List DeltaInput) (delta_index : Nat) (di : DeltaInput)
    (evs : List DiffEvent) :
    ((old_blob.getD [] = new_blob.getD []
        ∨ detectBinary (old_blob.getD []) = true
        ∨ detectBinary (new_blob.getD []) = true) →
      git_patch_from_blobs cbs old_blob old_as_path new_blob new_as_path evs
        = .ok (⟨old_as_path, new_as_path,
            detectBinary (old_blob.getD [])
              || detectBinary (new_blob.getD [])⟩, none))
    ∧ ((old_blob.getD [] = buffer.getD []
        ∨ detectBinary (old_blob.getD []) = true
        ∨ detectBinary (buffer.getD []) = true) →
      git_patch_from_blob_and_buffer cbs old_blob old_as_path buffer
        new_as_path evs
        = .ok (⟨old_as_path, new_as_path,
            detectBinary (old_blob.getD [])
              || detectBinary (buffer.getD [])⟩, none))
    ∧ (diff.get? delta_index = some di →
      (di.oldData = di.newData ∨ detectBinary di.oldData = true
        ∨ detectBinary di.newData = true) →
      git_patch_from_diff_delta cbs diff delta_index evs
        = .ok (⟨di.oldPath, di.newPath,
            detectBinary di.oldData || detectBinary di.newData⟩, none))
    ∧ (∀ od nd : List Char,
        detectBinary od = true ∨ detectBinary nd = true →
        (detectBinary od || detectBinary nd) = true) := by
  refine ⟨fun hid => ?_, fun hid => ?_, fun hdi hid => ?_, fun od nd h => ?_⟩
  · exact patch_from_buffers_no_patch cbs old_as_path new_as_path _ _ evs hid
  · exact patch_from_buffers_no_patch cbs old_as_path new_as_path _ _ evs hid
  · unfold git_patch_from_diff_delta
    rw [hdi]
    exact patch_from_buffers_no_patch cbs di.oldPath di.newPath _ _ evs hid
  · rcases h with h | h <;> simp [h]

theorem construction_no_patch_witness :
    git_patch_from_blobs ⟨fun _ => 0, fun _ => 0, fun _ _ _ _ => 0⟩
      (some "a\n".toList) "a.txt".toList (some "a\n".toList)
      "a.txt".toList []
      = .ok (⟨"a.txt".toList, "a.txt".toList,
          detectBinary ((some "a\n".toList).getD [])
            || detectBinary ((some "a\n".toList).getD [])⟩, none)
    ∧ git_patch_from_diff_delta ⟨fun _ => 0, fun _ => 0, fun _ _ _ _ => 0⟩
        [⟨"b.bin".toList, [Char.ofNat 0], "b.bin".toList, ['x']⟩] 0 []
      = .ok (⟨"b.bin".toList, "b.bin".toList,
          detectBinary [Char.ofNat 0] || detectBinary ['x']⟩, none)
    ∧ (detectBinary [Char.ofNat 0] || detectBinary ['x']) = true :=
  ⟨(construction_no_patch_on_identical_or_binary
      ⟨fun _ => 0, fun _ => 0, fun _ _ _ _ => 0⟩ "a.txt".toList
      "a.txt".toList (some "a\n".toList) (some "a\n".toList) none [] 0
      ⟨[], [], [], []⟩ []).1 (Or.inl rfl),
   (construction_no_patch_on_identical_or_binary
      ⟨fun _ => 0, fun _ => 0, fun _ _ _ _ => 0⟩ "a.txt".toList
      "a.txt".toList none none none
      [⟨"b.bin".toList, [Char.ofNat 0], "b.bin".toList, ['x']⟩] 0
      ⟨"b.bin".toList, [Char.ofNat 0], "b.bin".toList, ['x']⟩ []).2.2.1
      (by decide) (Or.inr (Or.inl (by decide))),
   (construction_no_patch_on_identical_or_binary
      ⟨fun _ => 0, fun _ => 0, fun _ _ _ _ => 0⟩ [] [] none none none [] 0
      ⟨[], [], [], []⟩ []).2.2.2 [Char.ofNat 0] ['x']
      (Or.inl (by decide))⟩

theorem buildRun_append (cbs : Callbacks) (d : Delta) (st : BuildState)
    (l1 l2 : List DiffEvent) :
    buildRun cbs d st (l1 ++ l2)
    = match buildRun cbs d st l1 with
      | .ok st2 => buildRun cbs d st2 l2
      | .error e => .error e := by
  induction l1 generalizing st with
  | nil => simp [buildRun]
  | cons ev t ih =>
    simp only [List.cons_append, buildRun]
    cases buildStep cbs d st ev with
    | ok st2 => exact ih st2
    | error e => rfl

/-- The event's callback, as invoked by the builder, returns a failure
signal. -/
def cbFails (cbs : Callbacks) (d : Delta) : DiffEvent → Prop
  | .file => cbs.file_cb d ≠ 0
  | .hunk os ol ns nl hdr => cbs.hunk_cb ⟨os, ol, ns, nl, hdr, []⟩ ≠ 0
  | .line o c a b => cbs.line_cb o c a b ≠ 0

/-- The code the event's callback returns when the builder invokes it. -/
def cbCode (cbs : Callbacks) (d : Delta) : DiffEvent → Int
  | .file => cbs.file_cb d
  | .hunk os ol ns nl hdr => cbs.hunk_cb ⟨os, ol, ns, nl, hdr, []⟩
  | .line o c a b => cbs.line_cb o c a b

theorem buildStep_cbFails (cbs : Callbacks) (d : Delta) (st : BuildState)
    (ev : DiffEvent) (hf : cbFails cbs d ev) :
    buildStep cbs d st ev = .error (.callbackFailure (cbCode cbs d ev)) := by
  cases ev with
  | file =>
    unfold cbFails at hf
    simp only [buildStep, cbCode]
    rw [if_neg hf]
  | hunk os ol ns nl hdr =>
    unfold cbFails at hf
    simp only [buildStep, cbCode]
    rw [if_neg hf]
  | line o c a b =>
    unfold cbFails at hf
    simp only [buildStep, cbCode]
    rw [if_neg hf]

theorem buildPatch_error_of_step (cbs : Callbacks) (d : Delta)
    (oldData newData : List Char) (pre post : List DiffEvent)
    (ev : DiffEvent) (st : BuildState) (e : GitError)
    (hpre : buildRun cbs d initState pre = .ok st)
    (hstep : buildStep cbs d st ev = .error e) :
    buildPatch cbs d oldData newData (pre ++ ev :: post) = .error e := by
  unfold buildPatch
  rw [buildRun_append, hpre]
  simp only [buildRun, hstep]

/-- C8: if a reachable point of the event sequence makes a callback fail, or
invokes a line callback with no current hunk, or invokes a hunk callback
before the file callback, then construction returns an error — the failing
callback's code is propagated, and `buildPatch` yields no patch, only the
failure. -/
theorem construction_aborts_on_callback_failure (cbs : Callbacks) (d : Delta)
    (oldData newData : List Char) (pre post : List DiffEvent)
    (st : BuildState)
    (hpre : buildRun cbs d initState pre = .ok st) :
    (∀ ev, cbFails cbs d ev →
      buildPatch cbs d oldData newData (pre ++ ev :: post)
        = .error (.callbackFailure (cbCode cbs d ev)))
    ∧ (∀ o c a b, cbs.line_cb o c a b = 0 → st.cur = none →
      buildPatch cbs d oldData newData (pre ++ .line o c a b :: post)
        = .error .protocolViolation)
    ∧ (∀ os ol ns nl hdr, cbs.hunk_cb ⟨os, ol, ns, nl, hdr, []⟩ = 0 →
      st.seenFile = false →
      buildPatch cbs d oldData newData (pre ++ .hunk os ol ns nl hdr :: post)
        = .error .protocolViolation) := by
  refine ⟨fun ev hf => ?_, fun o c a b hc hcur => ?_,
    fun os ol ns nl hdr hc hsf => ?_⟩
  · exact buildPatch_error_of_step cbs d oldData newData pre post ev st _
      hpre (buildStep_cbFails cbs d st ev hf)
  · exact buildPatch_error_of_step cbs d oldData newData pre post _ st _
      hpre (by simp only [buildStep, if_pos hc, hcur])
  · exact buildPatch_error_of_step cbs d oldData newData pre post _ st _
      hpre (by simp only [buildStep, if_pos hc, hsf, Bool.false_eq_true,
        if_false])

theorem construction_aborts_on_callback_failure_witness :
    buildPatch ⟨fun _ => 0, fun _ => -1, fun _ _ _ _ => 0⟩ exDelta
      "a\n".toList "b\n".toList
      ([.file] ++ .hunk 1 1 1 1 "@@ -1,1 +1,1 @@".toList :: [])
    = .error (.callbackFailure
        (cbCode ⟨fun _ => 0, fun _ => -1, fun _ _ _ _ => 0⟩ exDelta
          (.hunk 1 1 1 1 "@@ -1,1 +1,1 @@".toList))) :=
  (construction_aborts_on_callback_failure
    ⟨fun _ => 0, fun _ => -1, fun _ _ _ _ => 0⟩ exDelta "a\n".toList
    "b\n".toList [.file] [] ⟨true, [], none⟩ rfl).1
    (.hunk 1 1 1 1 "@@ -1,1 +1,1 @@".toList) (by unfold cbFails; decide)

theorem buildStep_file_ok (cbs : Callbacks) (d : Delta) (st st2 : BuildState)
    (h : buildStep cbs d st .file = .ok st2) :
    st2.done = st.done ∧ st2.cur = st.cur := by
  simp only [buildStep] at h
  split_ifs at h
  injection h with h2
  subst h2
  exact ⟨rfl, rfl⟩

theorem buildStep_hunk_ok (cbs : Callbacks) (d : Delta) (st st2 : BuildState)
    (os ol ns nl : Nat) (hdr : List Char)
    (h : buildStep cbs d st (.hunk os ol ns nl hdr) = .ok st2) :
    st2.done = pushCur st ∧ st2.cur = some ⟨os, ol, ns, nl, hdr, []⟩ := by
  simp only [buildStep] at h
  split_ifs at h
  injection h with h2
  subst h2
  exact ⟨rfl, rfl⟩

theorem buildStep_line_ok (cbs : Callbacks) (d : Delta) (st st2 : BuildState)
    (o : LineOrigin) (c : List Char) (a b : Int)
    (h : buildStep cbs d st (.line o c a b) = .ok st2) :
    ∃ hk, st.cur = some hk ∧ st2.done = st.done
      ∧ st2.cur = some { hk with lines := hk.lines ++ [⟨o, c, a, b⟩] } := by
  simp only [buildStep] at h
  split_ifs at h
  cases hcur : st.cur with
  | none => rw [hcur] at h; exact Except.noConfusion h
  | some hk =>
    rw [hcur] at h
    injection h with h2
    subst h2
    exact ⟨hk, rfl, rfl, rfl⟩

/-- The hunk header fields announced by the hunk events, in order. -/
def eventKey : DiffEvent → Option (Nat × Nat)
  | .hunk os ol _ _ _ => some (os, ol)
  | _ => none

/-- The (old_start, old_lines) pairs of the hunk events, in order. -/
def hunkKeys (evs : List DiffEvent) : List (Nat × Nat) :=
  evs.filterMap eventKey

/-- The old-file range key of a stored hunk. -/
def hunkKey (h : Hunk) : Nat × Nat := (h.old_start, h.old_lines)

theorem buildRun_keys (cbs : Callbacks) (d : Delta) (evs : List DiffEvent)
    (st st2 : BuildState) (hr : buildRun cbs d st evs = .ok st2) :
    (pushCur st2).map hunkKey = (pushCur st).map hunkKey ++ hunkKeys evs := by
  induction evs generalizing st with
  | nil =>
    simp only [buildRun] at hr
    injection hr with hr2
    subst hr2
    simp [hunkKeys]
  | cons ev t ih =>
    simp only [buildRun] at hr
    cases hstep : buildStep cbs d st ev with
    | error e => rw [hstep] at hr; exact Except.noConfusion hr
    | ok st1 =>
      rw [hstep] at hr
      rw [ih st1 hr]
      cases ev with
      | file =>
        obtain ⟨hd, hc⟩ := buildStep_file_ok cbs d st st1 hstep
        simp [pushCur, hd, hc, hunkKeys, eventKey, List.filterMap_cons]
      | hunk os ol ns nl hdr =>
        obtain ⟨hd, hc⟩ := buildStep_hunk_ok cbs d st st1 os ol ns nl hdr hstep
        simp [pushCur, hd, hc, hunkKeys, eventKey, List.filterMap_cons,
          hunkKey]
      | line o c a b =>
        obtain ⟨hk, hcur, hd, hc⟩ :=
          buildStep_line_ok cbs d st st1 o c a b hstep
        simp [pushCur, hd, hc, hcur, hunkKeys, eventKey, List.filterMap_cons,
          hunkKey]

/-- Hunk `h1` lies strictly before hunk `h2` in old-file line space: its
start is smaller and its old-file range ends at or before `h2` starts. -/
def HunkBefore (h1 h2 : Hunk) : Prop :=
  h1.old_start < h2.old_start ∧ h1.old_start + h1.old_lines ≤ h2.old_start

/-- Ordering of announced hunk header keys, matching `HunkBefore`. -/
def KeyBefore (k1 k2 : Nat × Nat) : Prop :=
  k1.1 < k2.1 ∧ k1.1 + k1.2 ≤ k2.1

instance (h1 h2 : Hunk) : Decidable (HunkBefore h1 h2) := by
  unfold HunkBefore; infer_instance

instance (k1 k2 : Nat × Nat) : Decidable (KeyBefore k1 k2) := by
  unfold KeyBefore; infer_instance

/-- C7: a patch built from an event sequence whose hunk events announce
strictly increasing, non-overlapping old-file ranges stores its hunks in that
order: pairwise strictly increasing `old_start` with disjoint
`[old_start, old_start + old_lines)` ranges.  All accessor operations are
pure reads, so the property persists after construction. -/
theorem constructed_hunks_ordered_disjoint (cbs : Callbacks) (d : Delta)
    (oldData newData : List Char) (evs : List DiffEvent) (p : Patch)
    (hb : buildPatch cbs d oldData newData evs = .ok p)
    (ho : (hunkKeys evs).Pairwise KeyBefore) :
    p.hunks.Pairwise HunkBefore := by
  unfold buildPatch at hb
  cases hr : buildRun cbs d initState evs with
  | error e => rw [hr] at hb; exact Except.noConfusion hb
  | ok st =>
    rw [hr] at hb
    injection hb with hb2
    have hkeys := buildRun_keys cbs d evs initState st hr
    have hkeys2 : (pushCur st).map hunkKey = hunkKeys evs := by
      simpa [initState, pushCur] using hkeys
    rw [← hkeys2, List.pairwise_map] at ho
    have hp : p.hunks = pushCur st := by rw [← hb2]
    rw [hp]
    exact ho.imp (fun hab => hab)

theorem constructed_hunks_ordered_disjoint_witness :
    ([⟨1, 2, 1, 1, "@@ -1,2 +1,1 @@".toList,
        [⟨.deletion, "b\n".toList, 2, -1⟩]⟩,
      ⟨6, 1, 5, 2, "@@ -6,1 +5,2 @@".toList,
        [⟨.addition, "y\n".toList, -1, 6⟩]⟩] : List Hunk).Pairwise
      HunkBefore := by
  have hb : buildPatch ⟨fun _ => 0, fun _ => 0, fun _ _ _ _ => 0⟩ exDelta
      [] []
      [.file, .hunk 1 2 1 1 "@@ -1,2 +1,1 @@".toList,
       .line .deletion "b\n".toList 2 (-1),
       .hunk 6 1 5 2 "@@ -6,1 +5,2 @@".toList,
       .line .addition "y\n".toList (-1) 6]
      = .ok ⟨exDelta,
          [⟨1, 2, 1, 1, "@@ -1,2 +1,1 @@".toList,
            [⟨.deletion, "b\n".toList, 2, -1⟩]⟩,
           ⟨6, 1, 5, 2, "@@ -6,1 +5,2 @@".toList,
            [⟨.addition, "y\n".toList, -1, 6⟩]⟩], [], []⟩ := by rfl
  exact constructed_hunks_ordered_disjoint _ exDelta [] [] _ _ hb
    (by unfold hunkKeys eventKey; decide)

/-- All lines accumulated in a builder state, across done and current hunks. -/
def allLines (st : BuildState) : List Line :=
  ((pushCur st).map Hunk.lines).flatten

/-- The line announced by a line event, if any. -/
def eventLine : DiffEvent → Option Line
  | .line o c a b => some ⟨o, c, a, b⟩
  | _ => none

/-- The lines announced by the line events, in order. -/
def lineEvents (evs : List DiffEvent) : List Line :=
  evs.filterMap eventLine

theorem lineEvents_cons_subset (ev : DiffEvent) (t : List DiffEvent) :
    ∀ l ∈ lineEvents t, l ∈ lineEvents (ev :: t) := by
  intro l hl
  unfold lineEvents at hl ⊢
  rw [List.filterMap_cons]
  cases heq : eventLine ev with
  | none => exact hl
  | some l2 => exact List.mem_cons_of_mem l2 hl

theorem buildRun_lines_pred (P : Line → Prop) (cbs : Callbacks) (d : Delta)
    (evs : List DiffEvent) (st st2 : BuildState)
    (hr : buildRun cbs d st evs = .ok st2)
    (hst : ∀ l ∈ allLines st, P l)
    (hev : ∀ l ∈ lineEvents evs, P l) :
    ∀ l ∈ allLines st2, P l := by
  induction evs generalizing st with
  | nil =>
    simp only [buildRun] at hr
    injection hr with hr2
    subst hr2
    exact hst
  | cons ev t ih =>
    simp only [buildRun] at hr
    cases hstep : buildStep cbs d st ev with
    | error e => rw [hstep] at hr; exact Except.noConfusion hr
    | ok st1 =>
      rw [hstep] at hr
      have hevt : ∀ l ∈ lineEvents t, P l :=
        fun l hl => hev l (lineEvents_cons_subset ev t l hl)
      refine ih st1 hr ?_ hevt
      cases ev with
      | file =>
        obtain ⟨hd, hc⟩ := buildStep_file_ok cbs d st st1 hstep
        have hall : allLines st1 = allLines st := by
          unfold allLines pushCur
          rw [hd, hc]
        intro l hl
        rw [hall] at hl
        exact hst l hl
      | hunk os ol ns nl hdr =>
        obtain ⟨hd, hc⟩ := buildStep_hunk_ok cbs d st st1 os ol ns nl hdr hstep
        have hall : allLines st1 = allLines st := by
          unfold allLines pushCur
          rw [hd, hc]
          simp [pushCur]
        intro l hl
        rw [hall] at hl
        exact hst l hl
      | line o c a b =>
        obtain ⟨hk, hcur, hd, hc⟩ :=
          buildStep_line_ok cbs d st st1 o c a b hstep
        have hall : allLines st1 = allLines st ++ [⟨o, c, a, b⟩] := by
          unfold allLines pushCur
          rw [hd, hc, hcur]
          simp
        intro l hl
        rw [hall] at hl
        rcases List.mem_append.mp hl with h1 | h2
        · exact hst l h1
        · have hleq : l = ⟨o, c, a, b⟩ := by simpa using h2
          subst hleq
          apply hev
          unfold lineEvents
          rw [List.filterMap_cons]
          exact List.mem_cons_self _ _

theorem buildPatch_lines_pred (P : Line → Prop) (cbs : Callbacks) (d : Delta)
    (oldData newData : List Char) (evs : List DiffEvent) (p : Patch)
    (hb : buildPatch cbs d oldData newData evs = .ok p)
    (hev : ∀ l ∈ lineEvents evs, P l) :
    ∀ h ∈ p.hunks, ∀ l ∈ h.lines, P l := by
  unfold buildPatch at hb
  cases hr : buildRun cbs d initState evs with
  | error e => rw [hr] at hb; exact Except.noConfusion hb
  | ok st =>
    rw [hr] at hb
    injection hb with hb2
    have hall := buildRun_lines_pred P cbs d evs initState st hr
      (by simp [allLines, pushCur, initState]) hev
    intro h hh l hl
    apply hall
    have hp : p.hunks = pushCur st := by rw [← hb2]
    rw [hp] at hh
    exact List.mem_flatten.mpr
      ⟨h.lines, List.mem_map_of_mem Hunk.lines hh, hl⟩

/-- The documented relation between a stored line's origin and its line
number fields: additions carry the sentinel in the old position and a
meaningful 1-based new position, deletions the converse, and context lines
meaningful values in both. -/
def LineNumbersWF (l : Line) : Prop :=
  (baseCategory l.origin = some .addition →
    l.old_lineno = NOT_APPLICABLE ∧ 1 ≤ l.new_lineno)
  ∧ (baseCategory l.origin = some .deletion →
    l.new_lineno = NOT_APPLICABLE ∧ 1 ≤ l.old_lineno)
  ∧ (baseCategory l.origin = some .context →
    1 ≤ l.old_lineno ∧ 1 ≤ l.new_lineno)

instance (l : Line) : Decidable (LineNumbersWF l) := by
  unfold LineNumbersWF; infer_instance

/-- C9: the builder stores line numbers exactly as the diff engine reports
them, so when every reported line respects the sentinel discipline — old
number not-applicable for additions, new number not-applicable for
deletions, both meaningful for context — every line stored in the
constructed patch does as well. -/
theorem constructed_line_numbers_wf (cbs : Callbacks) (d : Delta)
    (oldData newData : List Char) (evs : List DiffEvent) (p : Patch)
    (hb : buildPatch cbs d oldData newData evs = .ok p)
    (he : ∀ l ∈ lineEvents evs, LineNumbersWF l) :
    ∀ h ∈ p.hunks, ∀ l ∈ h.lines, LineNumbersWF l :=
  buildPatch_lines_pred LineNumbersWF cbs d oldData newData evs p hb he

theorem constructed_line_numbers_wf_witness :
    LineNumbersWF ⟨.deletion, "b\n".toList, 2, -1⟩ :=
  constructed_line_numbers_wf ⟨fun _ => 0, fun _ => 0, fun _ _ _ _ => 0⟩
    exDelta "a\nb\nc\n".toList "a\nX\nc\n".toList
    [.file, .hunk 1 3 1 3 "@@ -1,3 +1,3 @@".toList,
     .line .context "a\n".toList 1 1,
     .line .deletion "b\n".toList 2 (-1),
     .line .addition "X\n".toList (-1) 2,
     .line .context "c\n".toList 3 3]
    exPatch rfl (by decide) exHunk (by decide)
    ⟨.deletion, "b\n".toList, 2, -1⟩ (by decide)

/-- C10: the tag-to-character mapping of the line origin enumeration is
injective — ' ', '+', '-', '=', '>', '<', 'F', 'H', 'B' are pairwise
distinct — and when the diff engine only reports the six storable origins
(the formatter-only tags arise solely during formatting), every line stored
in a constructed patch carries a storable origin. -/
theorem origin_char_injective_and_stored_origins_storable :
    (∀ o1 o2 : LineOrigin, originChar o1 = originChar o2 → o1 = o2)
    ∧ ∀ (cbs : Callbacks) (d : Delta) (oldData newData : List Char)
        (evs : List DiffEvent) (p : Patch),
        buildPatch cbs d oldData newData evs = .ok p →
        (∀ l ∈ lineEvents evs, isStorable l.origin = true) →
        ∀ h ∈ p.hunks, ∀ l ∈ h.lines, isStorable l.origin = true := by
  constructor
  · decide
  · intro cbs d oldData newData evs p hb hev
    exact buildPatch_lines_pred (fun l => isStorable l.origin = true) cbs d
      oldData newData evs p hb hev

theorem origin_char_injective_and_stored_origins_storable_witness :
    LineOrigin.context = LineOrigin.context
    ∧ isStorable (Line.mk .deletion "b\n".toList 2 (-1)).origin = true :=
  ⟨origin_char_injective_and_stored_origins_storable.1 .context .context rfl,
   origin_char_injective_and_stored_origins_storable.2
    ⟨fun _ => 0, fun _ => 0, fun _ _ _ _ => 0⟩ exDelta "a\nb\nc\n".toList
    "a\nX\nc\n".toList
    [.file, .hunk 1 3 1 3 "@@ -1,3 +1,3 @@".toList,
     .line .context "a\n".toList 1 1,
     .line .deletion "b\n".toList 2 (-1),
     .line .addition "X\n".toList (-1) 2,
     .line .context "c\n".toList 3 3]
    exPatch rfl (by decide) exHunk (by decide)
    ⟨.deletion, "b\n".toList, 2, -1⟩ (by decide)⟩
